import Mathlib

/-!
Verification development for the piranha arbitrary-precision rational
coefficient layer (mp_rational.hpp) and its hybrid static/dynamic integer
representation (the static_integer / integer_union detail header).

The numerator/denominator integers of the rational layer are instances of
the external arbitrary-precision backend (mp_integer over GMP), which is
out of scope per the spec and is modelled by Int.  C strings are modelled
as lists of byte values (List Nat).  Machine limbs are modelled as Nat
with explicit reduction mod 2 ^ 32 where the C code wraps (the 32-bit limb
instantiation, si_limb_types of 32, which is available on every target).
-/

deriving instance DecidableEq for Except

namespace Piranha

/-- Error kinds surfaced by the embedded operations: zero_division_error,
std::invalid_argument and std::overflow_error of the C++ source. -/
inductive RErr where
  | zeroDivision
  | invalidArgument
  | overflow
deriving DecidableEq, Repr

/-- The mp_rational data model: a numerator/denominator pair of backend
integers (m_num, m_den in the source). -/
structure MpRat where
  num : Int
  den : Int
deriving DecidableEq, Repr

/-- mp_rational::canonicalise; gcd is the backend gcd (non-negative),
divexact is exact division, followed by the sign fix on the denominator. -/
def canonicalise (q : MpRat) : MpRat :=
  if q.num = 0 then
    ⟨q.num, 1⟩
  else if q.den / (Int.gcd q.num q.den : Int) < 0 then
    ⟨-(q.num / (Int.gcd q.num q.den : Int)), -(q.den / (Int.gcd q.num q.den : Int))⟩
  else
    ⟨q.num / (Int.gcd q.num q.den : Int), q.den / (Int.gcd q.num q.den : Int)⟩

/-- The canonical-form invariant of the spec: positive denominator, coprime
numerator and denominator, canonical zero is 0/1. -/
def isCanonical (q : MpRat) : Prop :=
  0 < q.den ∧ Int.gcd q.num q.den = 1 ∧ (q.num = 0 → q.den = 1)

instance (q : MpRat) : Decidable (isCanonical q) := by
  unfold isCanonical
  infer_instance

/-- The numerator/denominator constructor of mp_rational: store the pair,
throw zero_division_error when the denominator is zero, else canonicalise. -/
def mkRatND (n d : Int) : Except RErr MpRat :=
  if d = 0 then .error .zeroDivision else .ok (canonicalise ⟨n, d⟩)

/-- mp_rational::in_place_add on two rationals (other is a distinct object;
multiply_accumulate a b c adds b * c to a). -/
def inPlaceAdd (x y : MpRat) : MpRat :=
  if x.den = 1 ∧ y.den = 1 then
    ⟨x.num + y.num, x.den⟩
  else if x.den = 1 then
    ⟨x.num * y.den + y.num, y.den⟩
  else if y.den = 1 then
    ⟨x.num + x.den * y.num, x.den⟩
  else if x.den = y.den then
    canonicalise ⟨x.num + y.num, x.den⟩
  else
    canonicalise ⟨x.num * y.den + x.den * y.num, x.den * y.den⟩

/-- mp_rational::in_place_sub on two rationals (other a distinct object);
the general case negates the denominator, multiply-accumulates and negates
back, which amounts to num * yden - den * ynum. -/
def inPlaceSub (x y : MpRat) : MpRat :=
  if x.den = 1 ∧ y.den = 1 then
    ⟨x.num - y.num, x.den⟩
  else if x.den = 1 then
    ⟨x.num * y.den - y.num, y.den⟩
  else if y.den = 1 then
    ⟨x.num - x.den * y.num, x.den⟩
  else if x.den = y.den then
    canonicalise ⟨x.num - y.num, x.den⟩
  else
    canonicalise ⟨x.num * y.den - x.den * y.num, x.den * y.den⟩

/-- mp_rational::in_place_mult on two rationals. -/
def inPlaceMult (x y : MpRat) : MpRat :=
  if x.den = 1 ∧ y.den = 1 then
    ⟨x.num * y.num, x.den⟩
  else
    canonicalise ⟨x.num * y.num, x.den * y.den⟩

/-- mp_rational::in_place_div when this and other are distinct objects:
cross-multiply and canonicalise. -/
def inPlaceDivDistinct (x y : MpRat) : MpRat :=
  canonicalise ⟨x.num * y.den, x.den * y.num⟩

/-- mp_rational::in_place_div when this and other are the same object: the
guard sets numerator and denominator to 1 directly. -/
def inPlaceDivAliased (_x : MpRat) : MpRat :=
  ⟨1, 1⟩

/-- math::is_zero on a rational checks the numerator (is_zero_impl). -/
def ratIsZero (q : MpRat) : Bool :=
  q.num = 0

/-- The division-assignment operator on two distinct rationals: throw
zero_division_error when the divisor is zero (before any mutation), else
run in_place_div.  The Bool records whether the operator threw; the MpRat
is the receiver value after the call. -/
def opDivAssign (x y : MpRat) : MpRat × Bool :=
  if ratIsZero y then (x, true) else (inPlaceDivDistinct x y, false)

/-- The binary division operator: copy the left operand and apply the
division-assignment operator to the copy. -/
def binaryDiv (x y : MpRat) : Except RErr MpRat :=
  if ratIsZero y then .error .zeroDivision else .ok (inPlaceDivDistinct x y)

/-- in_place_add traced with this and other the same object: statements
execute sequentially on the single shared object. -/
def inPlaceAddAliased (x : MpRat) : MpRat :=
  if x.den = 1 ∧ x.den = 1 then
    ⟨x.num + x.num, x.den⟩
  else if x.den = 1 then
    ⟨x.num * x.den + x.num, x.den⟩
  else if x.den = 1 then
    ⟨x.num + x.den * x.num, x.den⟩
  else if x.den = x.den then
    canonicalise ⟨x.num + x.num, x.den⟩
  else
    let n1 := x.num * x.den
    let n2 := n1 + x.den * n1
    canonicalise ⟨n2, x.den * x.den⟩

/-- in_place_sub traced with this and other the same object. -/
def inPlaceSubAliased (x : MpRat) : MpRat :=
  if x.den = 1 ∧ x.den = 1 then
    ⟨x.num - x.num, x.den⟩
  else if x.den = 1 then
    ⟨x.num * x.den - x.num, x.den⟩
  else if x.den = 1 then
    ⟨x.num - x.den * x.num, x.den⟩
  else if x.den = x.den then
    canonicalise ⟨x.num - x.num, x.den⟩
  else
    let n1 := x.num * x.den
    let n2 := n1 - x.den * n1
    canonicalise ⟨n2, x.den * x.den⟩

/-- in_place_mult traced with this and other the same object: the numerator
update reads the shared numerator before writing, the denominator update
runs after and reads the untouched denominator. -/
def inPlaceMultAliased (x : MpRat) : MpRat :=
  if x.den = 1 ∧ x.den = 1 then
    ⟨x.num * x.num, x.den⟩
  else
    canonicalise ⟨x.num * x.num, x.den * x.den⟩

/-- The division-assignment operator applied to itself: the zero check on
the argument runs first; past it, in_place_div takes the aliasing guard. -/
def opDivAssignAliased (x : MpRat) : MpRat × Bool :=
  if ratIsZero x then (x, true) else (inPlaceDivAliased x, false)

/-- mp_rational::pow for an integral exponent: non-negative exponents raise
numerator and denominator; negative exponents fail on a zero numerator,
else invert, raising to the negated exponent, and negate both parts when
the new denominator is negative. -/
def ratPow (q : MpRat) (e : Int) : Except RErr MpRat :=
  if 0 ≤ e then
    .ok ⟨q.num ^ e.toNat, q.den ^ e.toNat⟩
  else if q.num = 0 then
    .error .zeroDivision
  else if q.num ^ (-e).toNat < 0 then
    .ok ⟨-(q.den ^ (-e).toNat), -(q.num ^ (-e).toNat)⟩
  else
    .ok ⟨q.den ^ (-e).toNat, q.num ^ (-e).toNat⟩

/-- The move constructor: the new object takes over the numerator and
denominator values; the numerator of the source is left in an unspecified
but valid backend state (residNum), and its denominator is then set to 1.
Returns (constructed object, source after the move). -/
def moveCtor (x : MpRat) (residNum : Int) : MpRat × MpRat :=
  (⟨x.num, x.den⟩, ⟨residNum, 1⟩)

/-- The move-assignment operator when target and source are distinct
objects: the target takes the values, the source numerator is unspecified
(residNum) and the source denominator is set to 1.
Returns (target after, source after). -/
def moveAssignDistinct (_t s : MpRat) (residNum : Int) : MpRat × MpRat :=
  (⟨s.num, s.den⟩, ⟨residNum, 1⟩)

/-- The move-assignment operator when target and source are the same
object: the self-assignment guard returns immediately, leaving the object
untouched. -/
def moveAssignSelf (x : MpRat) : MpRat :=
  x

/-! ## Text format

C strings are byte lists; 45, 47, 48..57 are the byte values of the minus
sign, the slash and the decimal digits.  The backend base-10 conversion of
mp_integer (GMP formatting and parsing, external per the spec) is modelled
by natStrB / intStrB and parseNatB / parseIntB: an optional minus sign
followed by a non-empty run of decimal digits. -/

/-- One decimal digit as a byte. -/
def digitB (d : Nat) : Nat := 48 + d

/-- Test for a decimal digit byte. -/
def isDigitB (c : Nat) : Bool := 48 ≤ c && c ≤ 57

/-- Little-endian decimal digits of a natural number, with explicit fuel
(fuel at least the number itself is always sufficient). -/
def digitsRevF : Nat → Nat → List Nat
  | 0, _ => []
  | fuel + 1, n => if n = 0 then [] else digitB (n % 10) :: digitsRevF fuel (n / 10)

/-- Backend base-10 formatting of a natural number. -/
def natStrB (n : Nat) : List Nat :=
  if n = 0 then [digitB 0] else (digitsRevF n n).reverse

/-- Value of a little-endian digit-byte list. -/
def valRev : List Nat → Nat
  | [] => 0
  | c :: cs => (c - 48) + 10 * valRev cs

/-- Backend base-10 parsing of an unsigned decimal string: a non-empty
run of digits. -/
def parseNatB (cs : List Nat) : Option Nat :=
  if cs = [] then none
  else if cs.all isDigitB then some (valRev cs.reverse) else none

/-- Backend base-10 parsing of a signed decimal string: an optional
leading minus sign followed by a non-empty run of digits. -/
def parseIntB : List Nat → Option Int
  | 45 :: rest => (parseNatB rest).map (fun m => -(m : Int))
  | cs => (parseNatB cs).map (fun m => (m : Int))

/-- Backend base-10 formatting of a signed integer. -/
def intStrB (i : Int) : List Nat :=
  if i < 0 then 45 :: natStrB i.natAbs else natStrB i.natAbs

/-- The scan of the C-string constructor of mp_rational: the prefix before
the first slash (the whole string if no slash occurs), and the remainder
after that slash when one occurs. -/
def splitSlash : List Nat → List Nat × Option (List Nat)
  | [] => ([], none)
  | c :: cs =>
    if c = 47 then ([], some cs)
    else
      let p := splitSlash cs
      (c :: p.1, p.2)

/-- The stream-output operator of mp_rational: the numerator alone when
the denominator is 1, else numerator, slash, denominator. -/
def printRatB (q : MpRat) : List Nat :=
  if q.den = 1 then intStrB q.num else intStrB q.num ++ 47 :: intStrB q.den

/-- The C-string constructor of mp_rational: parse the part before the
first slash as the numerator (denominator stays 1 when no slash occurs);
with a slash, parse the rest as the denominator, throw zero_division_error
when it is zero, and canonicalise.  A part the backend cannot parse throws
std::invalid_argument. -/
def ratFromBytes (cs : List Nat) : Except RErr MpRat :=
  match splitSlash cs with
  | (pre, none) =>
    match parseIntB pre with
    | none => .error .invalidArgument
    | some n => .ok ⟨n, 1⟩
  | (pre, some post) =>
    match parseIntB pre with
    | none => .error .invalidArgument
    | some n =>
      match parseIntB post with
      | none => .error .invalidArgument
      | some d => if d = 0 then .error .zeroDivision else .ok (canonicalise ⟨n, d⟩)

/-- The exact printed grammar as characterized by claim C5: a signed
decimal integer alone, or numerator and denominator separated by a slash
with the sign carried by the numerator and a positive denominator. -/
def specGrammarC5 (cs : List Nat) : Bool :=
  match splitSlash cs with
  | (pre, none) => (parseIntB pre).isSome
  | (pre, some post) =>
    (parseIntB pre).isSome &&
      match parseNatB post with
      | some d => decide (0 < d)
      | none => false

/-! ## Static integer and integer union

Embedding of the static_integer and integer_union templates with the
32-bit limb instantiation (limb_t is 32 bits wide, dlimb_t 64; the
fixed-size limb array has 3 entries).  Limbs are Nats kept below 2 ^ 32;
every store the C code performs through a limb_t cast reduces mod 2 ^ 32.
The _mp_size field holds the signed count of used limbs. -/

/-- static_integer: the _mp_size field and the three limbs, least
significant first.  The _mp_alloc field is the union discriminant and is
0 whenever the static representation is live, so it is not repeated
here. -/
structure SInt where
  mpSize : Int
  l0 : Nat
  l1 : Nat
  l2 : Nat
deriving DecidableEq, Repr

/-- The magnitude stored in the limbs. -/
def SInt.mag (s : SInt) : Nat := s.l0 + s.l1 * 2 ^ 32 + s.l2 * 2 ^ 64

/-- The represented integer value: the magnitude, negated when _mp_size is
negative. -/
def SInt.val (s : SInt) : Int :=
  if s.mpSize < 0 then -(s.mag : Int) else (s.mag : Int)

/-- static_integer::negate flips the sign of _mp_size. -/
def SInt.negate (s : SInt) : SInt := ⟨-s.mpSize, s.l0, s.l1, s.l2⟩

/-- Read limb number i (the C array access m_limbs[i]). -/
def SInt.limb (s : SInt) (i : Nat) : Nat :=
  if i = 0 then s.l0 else if i = 1 then s.l1 else s.l2

/-- Write limb number i. -/
def SInt.setLimb (s : SInt) (i : Nat) (v : Nat) : SInt :=
  if i = 0 then { s with l0 := v }
  else if i = 1 then { s with l1 := v }
  else { s with l2 := v }

/-- The all-zero static integer (the default constructor). -/
def SInt.zero : SInt := ⟨0, 0, 0, 0⟩

/-- static_integer::set_bit: set one magnitude bit and extend _mp_size
when the bit lies in a limb beyond the current size. -/
def SInt.setBit (s : SInt) (idx : Nat) : SInt :=
  let quot := idx / 32
  let rem := idx % 32
  let s' := s.setLimb quot (s.limb quot ||| (1 <<< rem))
  let newSize : Int := (quot : Int) + 1
  if s'.mpSize < 0 then
    if -newSize < s'.mpSize then { s' with mpSize := -newSize } else s'
  else
    if newSize > s'.mpSize then { s' with mpSize := newSize } else s'

/-- The while loop of the static_integer constructor from an integral
value: repeatedly halve with C truncated division, setting one bit per
iteration, and throw std::overflow_error once the bit index reaches the
total bit width 3 * 32.  Structured with fuel; 97 iterations always
suffice because the index grows by one per step and is checked at 96. -/
def ctorLoop : Nat → Int → Nat → SInt → Except RErr SInt
  | 0, _, _, _ => .error .overflow
  | fuel + 1, n, bitIdx, s =>
    if n = 0 then .ok s
    else if bitIdx = 32 * 3 then .error .overflow
    else
      ctorLoop fuel (Int.tdiv n 2) (bitIdx + 1)
        (if Int.tmod n 2 ≠ 0 then s.setBit bitIdx else s)

/-- The static_integer constructor from an integral value: run the bit
loop from the default-constructed zero, then fix the sign for a negative
input. -/
def staticOfInt (n : Int) : Except RErr SInt :=
  match ctorLoop 97 n 0 SInt.zero with
  | .error e => .error e
  | .ok s => .ok (if n < 0 then s.negate else s)

/-- static_integer::raw_add for the both-non-negative sign mask: double
width limb sums capture the carries, and the result size is the larger
input size plus one when the limb there is non-zero. -/
def rawAddPos (x y : SInt) : SInt :=
  let lo := x.l0 + y.l0
  let mid := x.l1 + y.l1 + lo / 2 ^ 32
  let r0 := lo % 2 ^ 32
  let r1 := mid % 2 ^ 32
  let r2 := (mid / 2 ^ 32) % 2 ^ 32
  let maxAbs := max x.mpSize y.mpSize
  let res : SInt := ⟨0, r0, r1, r2⟩
  { res with mpSize := maxAbs + (if res.limb maxAbs.toNat ≠ 0 then 1 else 0) }

/-- static_integer::raw_add for the both-negative sign mask: identical
limb arithmetic with the size taken from the negated input sizes. -/
def rawAddNeg (x y : SInt) : SInt :=
  let lo := x.l0 + y.l0
  let mid := x.l1 + y.l1 + lo / 2 ^ 32
  let r0 := lo % 2 ^ 32
  let r1 := mid % 2 ^ 32
  let r2 := (mid / 2 ^ 32) % 2 ^ 32
  let maxAbs := max (-x.mpSize) (-y.mpSize)
  let res : SInt := ⟨0, r0, r1, r2⟩
  { res with mpSize := maxAbs + (if res.limb maxAbs.toNat ≠ 0 then 1 else 0) }

/-- static_integer::raw_sub: magnitude subtraction on the two low limbs
with wrapping unsigned arithmetic and an explicit borrow, the top limb
set to zero, and the size recomputed from the resulting limbs. -/
def rawSub (x y : SInt) : SInt :=
  let b : Nat := if x.l0 < y.l0 then 1 else 0
  let r0 := (x.l0 + 2 ^ 32 - y.l0) % 2 ^ 32
  let r1 := (x.l1 + 2 * 2 ^ 32 - y.l1 - b) % 2 ^ 32
  let size : Int := if r1 ≠ 0 then 2 else if r0 ≠ 0 then 1 else 0
  ⟨size, r0, r1, 0⟩

/-- static_integer::add: dispatch over the sign mask of the two operands;
mixed-sign cases choose the minuend by comparing sizes and, at equal
sizes, the single limb at index size - 1. -/
def sAdd (x y : SInt) : SInt :=
  let signMask : Nat :=
    (if 0 ≤ x.mpSize then 1 else 0) + 2 * (if 0 ≤ y.mpSize then 1 else 0)
  if signMask = 0 then
    (rawAddNeg x y).negate
  else if signMask = 1 then
    if x.mpSize > -y.mpSize ∨
        (x.mpSize = -y.mpSize ∧
          x.limb (x.mpSize - 1).toNat > y.limb (x.mpSize - 1).toNat) then
      rawSub x y
    else
      (rawSub y x).negate
  else if signMask = 2 then
    if -x.mpSize > y.mpSize ∨
        (-x.mpSize = y.mpSize ∧
          x.limb (y.mpSize - 1).toNat > y.limb (y.mpSize - 1).toNat) then
      (rawSub x y).negate
    else
      rawSub y x
  else
    rawAddPos x y

/-- integer_union: exactly one of the static or the dynamic (backend mpz)
representation is live. -/
inductive IntU where
  | st : SInt → IntU
  | dy : Int → IntU
deriving DecidableEq, Repr

/-- The integer value held by either representation. -/
def IntU.val : IntU → Int
  | .st s => s.val
  | .dy z => z

/-- Modelled from the spec: promotion reconstructs the static value
bit-for-bit into a freshly initialized dynamic value, reapplying the sign
(integer_union::upgrade is an empty stub in the source). -/
def IntU.promote : IntU → IntU
  | .st s => .dy s.val
  | u => u

/-- Modelled from the spec: the union addition entry point classifies both
operands; when both are static and the limb-count pre-check (larger
operand size plus one within the 3-limb capacity) passes, the static
routine static_integer::add executes, otherwise both operands are
promoted and the backend adds.  The source implements no arithmetic on
integer_union itself. -/
def IntU.addU : IntU → IntU → IntU
  | .st a, .st b =>
    if a.mpSize.natAbs ≤ 2 ∧ b.mpSize.natAbs ≤ 2 then .st (sAdd a b)
    else .dy (a.val + b.val)
  | a, b => .dy (a.val + b.val)

/-- Modelled from the spec: union subtraction, as addition with the
negated second operand on the static fast path, delegating to the backend
otherwise. -/
def IntU.subU : IntU → IntU → IntU
  | .st a, .st b =>
    if a.mpSize.natAbs ≤ 2 ∧ b.mpSize.natAbs ≤ 2 then .st (sAdd a b.negate)
    else .dy (a.val - b.val)
  | a, b => .dy (a.val - b.val)

/-- Modelled from the spec: union multiplication; the source ships no
static multiplication routine (it is commented out), so every
multiplication promotes and delegates to the backend. -/
def IntU.mulU (a b : IntU) : IntU :=
  .dy (a.val * b.val)

end Piranha

namespace Piranha

/-! Concrete scenarios listed by the spec, evaluated on the embedding. -/

example : mkRatND 6 4 = .ok ⟨3, 2⟩ := by decide
example : mkRatND 7 (-14) = .ok ⟨-1, 2⟩ := by decide
example : mkRatND 0 5 = .ok ⟨0, 1⟩ := by decide
example : mkRatND 5 0 = .error .zeroDivision := by decide
example : inPlaceAdd ⟨1, 3⟩ ⟨1, 6⟩ = ⟨1, 2⟩ := by decide
example : ratPow ⟨2, 3⟩ (-2) = .ok ⟨9, 4⟩ := by decide

end Piranha

namespace Piranha

/-! ## Canonicalisation lemmas -/

theorem canonicalise_spec (q : MpRat) (hd : q.den ≠ 0) :
    isCanonical (canonicalise q) ∧
      (canonicalise q).num * q.den = q.num * (canonicalise q).den := by
  obtain ⟨n, d⟩ := q
  simp only at hd
  unfold canonicalise
  by_cases hq : n = 0
  · subst hq
    simp only [if_pos rfl]
    exact ⟨⟨by norm_num, by simp, fun _ => rfl⟩, by simp⟩
  · dsimp only
    rw [if_neg hq]
    have hg : 0 < Int.gcd n d := Int.gcd_pos_iff.mpr (Or.inl hq)
    obtain ⟨g, hgdef⟩ : ∃ g : Int, ((Int.gcd n d : Nat) : Int) = g := ⟨_, rfl⟩
    rw [hgdef]
    have hgz : g ≠ 0 := by
      rw [← hgdef]
      exact_mod_cast hg.ne'
    obtain ⟨n1, hn1⟩ : g ∣ n := hgdef ▸ Int.gcd_dvd_left
    obtain ⟨d1, hd1⟩ : g ∣ d := hgdef ▸ Int.gcd_dvd_right
    have hnum : n / g = n1 := by
      rw [hn1]
      exact Int.mul_ediv_cancel_left _ hgz
    have hden : d / g = d1 := by
      rw [hd1]
      exact Int.mul_ediv_cancel_left _ hgz
    have hcop : Int.gcd n1 d1 = 1 := by
      have h2 := Int.gcd_div_gcd_div_gcd hg
      rwa [hgdef, hnum, hden] at h2
    have hn1z : n1 ≠ 0 := fun h => hq (by rw [hn1, h, mul_zero])
    have hd1z : d1 ≠ 0 := fun h => hd (by rw [hd1, h, mul_zero])
    have hval : n1 * d = n * d1 := by
      rw [hn1, hd1]
      ring
    rw [hnum, hden]
    by_cases hneg : d1 < 0
    · rw [if_pos hneg]
      refine ⟨⟨?_, ?_, ?_⟩, ?_⟩
      · show (0 : Int) < -d1
        omega
      · show Int.gcd (-n1) (-d1) = 1
        rwa [Int.neg_gcd, Int.gcd_neg]
      · intro h
        exact absurd (neg_eq_zero.mp h) hn1z
      · show -n1 * d = n * -d1
        rw [neg_mul, hval]
        ring
    · rw [if_neg hneg]
      refine ⟨⟨?_, hcop, fun h => absurd h hn1z⟩, hval⟩
      show (0 : Int) < d1
      omega

theorem canonicalise_of_canonical (q : MpRat) (h : isCanonical q) :
    canonicalise q = q := by
  obtain ⟨hpos, hgcd, hzero⟩ := h
  unfold canonicalise
  by_cases hq : q.num = 0
  · rw [if_pos hq]
    cases q
    simp only at hq hzero ⊢
    rw [hzero hq]
  · rw [if_neg hq, hgcd]
    simp only [Nat.cast_one, Int.ediv_one]
    rw [if_neg (by omega)]

theorem canonicalise_diag (a : Int) (ha : a ≠ 0) :
    canonicalise ⟨a, a⟩ = ⟨1, 1⟩ := by
  unfold canonicalise
  rw [if_neg ha]
  simp only [Int.gcd_self]
  rcases lt_or_gt_of_ne ha with hlt | hgt
  · have habs : ((a.natAbs : Int)) = -a := Int.ofNat_natAbs_of_nonpos (le_of_lt hlt)
    have : a / ((a.natAbs : Int)) = -1 := by
      rw [habs, Int.ediv_neg, Int.ediv_self ha]
    simp only [this]
    norm_num
  · have habs : ((a.natAbs : Int)) = a := Int.natAbs_of_nonneg (le_of_lt hgt)
    have : a / ((a.natAbs : Int)) = 1 := by
      rw [habs, Int.ediv_self ha]
    simp only [this]
    norm_num

end Piranha

namespace Piranha

/-! ## Claim C1: numerator/denominator constructor -/

/-- C1: for every integer pair (n, d), the numerator/denominator
constructor throws zero_division_error exactly when d = 0; otherwise it
produces a rational equal in value to n / d that is in canonical form
(positive denominator, coprime parts, zero as 0/1). -/
theorem claim_C1 (n d : Int) :
    (mkRatND n d = .error .zeroDivision ↔ d = 0) ∧
    (d ≠ 0 → ∃ q, mkRatND n d = .ok q) ∧
    ∀ q, mkRatND n d = .ok q →
      0 < q.den ∧ Int.gcd q.num q.den = 1 ∧ (q.num = 0 → q.den = 1) ∧
        q.num * d = n * q.den := by
  refine ⟨?_, ?_, ?_⟩
  · unfold mkRatND
    by_cases h : d = 0
    · simp [h]
    · simp [h]
  · intro h
    refine ⟨canonicalise ⟨n, d⟩, ?_⟩
    unfold mkRatND
    rw [if_neg h]
  · intro q hq
    unfold mkRatND at hq
    by_cases h : d = 0
    · rw [if_pos h] at hq
      cases hq
    · rw [if_neg h] at hq
      obtain rfl : canonicalise ⟨n, d⟩ = q := by injection hq
      obtain ⟨⟨h1, h2, h3⟩, hval⟩ := canonicalise_spec ⟨n, d⟩ h
      exact ⟨h1, h2, h3, hval⟩

/-- Witness for C1 at the concrete spec instances: (6, 4) gives 3/2,
(7, -14) gives -1/2, (0, 5) gives 0/1, and a zero denominator throws. -/
theorem claim_C1_witness :
    (4 : Int) ≠ 0 ∧ (∃ q, mkRatND 6 4 = .ok q) ∧
      mkRatND 6 4 = .ok ⟨3, 2⟩ ∧ mkRatND 7 (-14) = .ok ⟨-1, 2⟩ ∧
      mkRatND 0 5 = .ok ⟨0, 1⟩ ∧ mkRatND 5 0 = .error .zeroDivision :=
  ⟨by norm_num, (claim_C1 6 4).2.1 (by norm_num), by decide, by decide, by decide,
    by decide⟩

/-! ## Claim C3: division by zero and atomicity on error -/

/-- C3: the division-assignment operator and the binary division operator
throw zero_division_error exactly when the divisor is zero, and when the
error is thrown the receiver keeps its pre-call value; this also covers
the aliased self-division form. -/
theorem claim_C3 (x y : MpRat) :
    ((opDivAssign x y).2 = true ↔ y.num = 0) ∧
    ((opDivAssign x y).2 = true → (opDivAssign x y).1 = x) ∧
    (binaryDiv x y = .error .zeroDivision ↔ y.num = 0) ∧
    ((opDivAssignAliased x).2 = true ↔ x.num = 0) ∧
    ((opDivAssignAliased x).2 = true → (opDivAssignAliased x).1 = x) := by
  unfold opDivAssign binaryDiv opDivAssignAliased ratIsZero
  by_cases h : y.num = 0 <;> by_cases h2 : x.num = 0 <;> simp [h, h2]

/-- Witness for C3 at the spec instance rational(5,1) / rational(0,1): the
operator throws and the receiver keeps its value 5. -/
theorem claim_C3_witness :
    (opDivAssign ⟨5, 1⟩ ⟨0, 1⟩).2 = true ∧
      (opDivAssign ⟨5, 1⟩ ⟨0, 1⟩).1 = ⟨5, 1⟩ ∧
      binaryDiv ⟨5, 1⟩ ⟨0, 1⟩ = .error .zeroDivision :=
  ⟨(claim_C3 ⟨5, 1⟩ ⟨0, 1⟩).1.mpr rfl,
    (claim_C3 ⟨5, 1⟩ ⟨0, 1⟩).2.1 ((claim_C3 ⟨5, 1⟩ ⟨0, 1⟩).1.mpr rfl),
    (claim_C3 ⟨5, 1⟩ ⟨0, 1⟩).2.2.1.mpr rfl⟩

/-! ## Claim C6: self-operation correctness -/

/-- C6: for each in-place operator, the aliased self-operation produces
the same final value as applying the operator to the object and a distinct
copy of it; division needs the nonzero precondition checked by the outer
operator and the positive-denominator invariant. -/
theorem claim_C6 (x : MpRat) :
    inPlaceAddAliased x = inPlaceAdd x x ∧
    inPlaceSubAliased x = inPlaceSub x x ∧
    inPlaceMultAliased x = inPlaceMult x x ∧
    (0 < x.den → x.num ≠ 0 → inPlaceDivAliased x = inPlaceDivDistinct x x) := by
  refine ⟨?_, ?_, rfl, ?_⟩
  · unfold inPlaceAddAliased inPlaceAdd
    by_cases h : x.den = 1 <;> simp [h]
  · unfold inPlaceSubAliased inPlaceSub
    by_cases h : x.den = 1 <;> simp [h]
  · intro hden hnum
    unfold inPlaceDivAliased inPlaceDivDistinct
    rw [mul_comm x.den x.num]
    exact (canonicalise_diag (x.num * x.den) (mul_ne_zero hnum (by omega))).symm

/-- Witness for C6 at x = 2/3, discharging the division preconditions. -/
theorem claim_C6_witness :
    (0 : Int) < 3 ∧ (2 : Int) ≠ 0 ∧
      inPlaceDivAliased ⟨2, 3⟩ = inPlaceDivDistinct ⟨2, 3⟩ ⟨2, 3⟩ :=
  ⟨by norm_num, by norm_num, (claim_C6 ⟨2, 3⟩).2.2.2 (by norm_num) (by norm_num)⟩

/-! ## Claim C7: integral exponentiation -/

/-- C7: for canonical q, a non-negative exponent raises numerator and
denominator independently and yields a canonical result; a negative
exponent on zero throws zero_division_error; a negative exponent on a
nonzero base inverts first and yields a canonical rational whose value is
the inverse power. -/
theorem claim_C7 (q : MpRat) (e : Int) (hc : isCanonical q) :
    (0 ≤ e → ratPow q e = .ok ⟨q.num ^ e.toNat, q.den ^ e.toNat⟩ ∧
      isCanonical ⟨q.num ^ e.toNat, q.den ^ e.toNat⟩) ∧
    (e < 0 → q.num = 0 → ratPow q e = .error .zeroDivision) ∧
    (e < 0 → q.num ≠ 0 → ∃ r, ratPow q e = .ok r ∧ isCanonical r ∧
      r.num * q.num ^ (-e).toNat = q.den ^ (-e).toNat * r.den) := by
  obtain ⟨hd, hg, hz⟩ := hc
  have hgpow : ∀ k : Nat, Int.gcd (q.num ^ k) (q.den ^ k) = 1 := by
    intro k
    show Nat.gcd (q.num ^ k).natAbs (q.den ^ k).natAbs = 1
    rw [Int.natAbs_pow, Int.natAbs_pow]
    exact Nat.Coprime.pow _ _ hg
  refine ⟨?_, ?_, ?_⟩
  · intro he
    unfold ratPow
    rw [if_pos he]
    refine ⟨rfl, pow_pos hd _, hgpow _, ?_⟩
    intro h0
    by_cases hk : e.toNat = 0
    · rw [hk] at h0
      norm_num at h0
    · have : q.num = 0 := (pow_eq_zero_iff hk).mp h0
      rw [hz this]
      exact one_pow _
  · intro he h0
    unfold ratPow
    rw [if_neg (by omega), if_pos h0]
  · intro he h0
    unfold ratPow
    rw [if_neg (by omega), if_neg h0]
    have hdk : q.den ^ (-e).toNat > 0 := pow_pos hd _
    have hnk : q.num ^ (-e).toNat ≠ 0 := pow_ne_zero _ h0
    have hswap : Int.gcd (q.den ^ (-e).toNat) (q.num ^ (-e).toNat) = 1 := by
      rw [Int.gcd_comm]
      exact hgpow _
    by_cases hneg : q.num ^ (-e).toNat < 0
    · rw [if_pos hneg]
      refine ⟨_, rfl, ⟨by dsimp only; omega, ?_, ?_⟩, ?_⟩
      · show Int.gcd (-(q.den ^ (-e).toNat)) (-(q.num ^ (-e).toNat)) = 1
        rwa [Int.neg_gcd, Int.gcd_neg]
      · intro hcontra
        dsimp only at hcontra
        omega
      · dsimp only
        ring
    · rw [if_neg hneg]
      refine ⟨_, rfl, ⟨by dsimp only; omega, hswap, ?_⟩, rfl⟩
      intro hcontra
      dsimp only at hcontra
      omega

/-- Witness for C7 at q = 2/3 with exponent -2: the result is 9/4. -/
theorem claim_C7_witness :
    isCanonical (⟨2, 3⟩ : MpRat) ∧ (-2 : Int) < 0 ∧ (2 : Int) ≠ 0 ∧
      ratPow ⟨2, 3⟩ (-2) = .ok ⟨9, 4⟩ ∧
      (∃ r, ratPow (⟨2, 3⟩ : MpRat) (-2) = .ok r ∧ isCanonical r ∧
        r.num * (2 : Int) ^ 2 = (3 : Int) ^ 2 * r.den) :=
  ⟨by decide, by norm_num, by norm_num, by decide,
    (claim_C7 ⟨2, 3⟩ (-2) (by decide)).2.2 (by norm_num) (by norm_num)⟩

/-! ## Claim C10: moved-from state -/

/-- C10 counterexample: self-move-assignment of 1/2 leaves the source
denominator at 2, not 1, because the self-assignment guard returns before
touching the object; so the claim as stated fails for x = 1/2 used as the
source (and target) of a move assignment. -/
theorem claim_C10_counterexample :
    (moveAssignSelf ⟨1, 2⟩).den ≠ 1 := by decide

/-- C10 amended: after a move construction, or a move assignment whose
target is a distinct object, the source denominator equals 1;
self-move-assignment leaves the object entirely unchanged; in every case
the source keeps a positive denominator and remains valid, and the
moved-to object receives the original value. -/
theorem claim_C10 (x : MpRat) (residNum : Int) :
    (moveCtor x residNum).2.den = 1 ∧
    (∀ t, (moveAssignDistinct t x residNum).2.den = 1) ∧
    moveAssignSelf x = x ∧
    (0 < x.den → 0 < (moveAssignSelf x).den ∧ 0 < (moveCtor x residNum).2.den ∧
      (moveCtor x residNum).1 = x) :=
  ⟨rfl, fun _ => rfl, rfl, fun h => ⟨h, by show (0 : Int) < 1; norm_num, rfl⟩⟩

/-- Witness for C10 at x = 1/2 with residual numerator 5. -/
theorem claim_C10_witness :
    (0 : Int) < 2 ∧ 0 < (moveAssignSelf (⟨1, 2⟩ : MpRat)).den ∧
      (moveCtor (⟨1, 2⟩ : MpRat) 5).2.den = 1 :=
  ⟨by norm_num, ((claim_C10 ⟨1, 2⟩ 5).2.2.2 (by norm_num)).1, (claim_C10 ⟨1, 2⟩ 5).1⟩

end Piranha

namespace Piranha

/-! ## Decimal formatting and parsing lemmas -/

theorem digitsRevF_spec :
    ∀ fuel n, n ≤ fuel →
      valRev (digitsRevF fuel n) = n ∧
        (∀ c ∈ digitsRevF fuel n, isDigitB c = true) ∧
        (n ≠ 0 → digitsRevF fuel n ≠ []) := by
  intro fuel
  induction fuel with
  | zero =>
    intro n hn
    interval_cases n
    exact ⟨rfl, by simp [digitsRevF], fun h => absurd rfl h⟩
  | succ fuel ih =>
    intro n hn
    by_cases hz : n = 0
    · subst hz
      exact ⟨rfl, by simp [digitsRevF], fun h => absurd rfl h⟩
    · have hrec : n / 10 ≤ fuel := by
        have := Nat.div_lt_self (Nat.pos_of_ne_zero hz) (by norm_num : 1 < 10)
        omega
      obtain ⟨hval, hdig, _⟩ := ih (n / 10) hrec
      have hstep : digitsRevF (fuel + 1) n = digitB (n % 10) :: digitsRevF fuel (n / 10) := by
        show (if n = 0 then [] else digitB (n % 10) :: digitsRevF fuel (n / 10)) = _
        rw [if_neg hz]
      refine ⟨?_, ?_, ?_⟩
      · rw [hstep]
        show digitB (n % 10) - 48 + 10 * valRev (digitsRevF fuel (n / 10)) = n
        rw [hval]
        unfold digitB
        omega
      · rw [hstep]
        intro c hc
        rcases List.mem_cons.mp hc with rfl | hc2
        · have : n % 10 < 10 := Nat.mod_lt _ (by norm_num)
          simp only [isDigitB, digitB, Bool.and_eq_true, decide_eq_true_eq]
          omega
        · exact hdig c hc2
      · intro _
        rw [hstep]
        exact List.cons_ne_nil _ _

theorem natStrB_spec (n : Nat) :
    natStrB n ≠ [] ∧ (∀ c ∈ natStrB n, isDigitB c = true) ∧
      parseNatB (natStrB n) = some n := by
  by_cases hz : n = 0
  · subst hz
    exact ⟨by decide, by decide, by decide⟩
  · obtain ⟨hval, hdig, hne⟩ := digitsRevF_spec n n le_rfl
    have hrepr : natStrB n = (digitsRevF n n).reverse := by
      unfold natStrB
      rw [if_neg hz]
    have hne2 : natStrB n ≠ [] := by
      rw [hrepr]
      simpa using hne hz
    have hdig2 : ∀ c ∈ natStrB n, isDigitB c = true := by
      rw [hrepr]
      intro c hc
      exact hdig c (List.mem_reverse.mp hc)
    refine ⟨hne2, hdig2, ?_⟩
    unfold parseNatB
    rw [if_neg hne2, if_pos (List.all_eq_true.mpr hdig2)]
    rw [hrepr, List.reverse_reverse, hval]

theorem intStrB_spec (i : Int) :
    intStrB i ≠ [] ∧ (∀ c ∈ intStrB i, c ≠ 47) ∧
      parseIntB (intStrB i) = some i := by
  obtain ⟨hne, hdig, hparse⟩ := natStrB_spec i.natAbs
  by_cases hneg : i < 0
  · have hrepr : intStrB i = 45 :: natStrB i.natAbs := by
      unfold intStrB
      rw [if_pos hneg]
    refine ⟨by rw [hrepr]; exact List.cons_ne_nil _ _, ?_, ?_⟩
    · rw [hrepr]
      intro c hc
      rcases List.mem_cons.mp hc with rfl | hc2
      · omega
      · have := hdig c hc2
        simp only [isDigitB, Bool.and_eq_true, decide_eq_true_eq] at this
        omega
    · rw [hrepr]
      show (parseNatB (natStrB i.natAbs)).map (fun m => -(m : Int)) = some i
      rw [hparse]
      show some (-(i.natAbs : Int)) = some i
      congr 1
      omega
  · have hrepr : intStrB i = natStrB i.natAbs := by
      unfold intStrB
      rw [if_neg hneg]
    obtain ⟨c, cs, hcons⟩ := List.exists_cons_of_ne_nil hne
    have hcdig : isDigitB c = true := hdig c (by rw [hcons]; exact List.mem_cons_self _ _)
    have hc45 : c ≠ 45 := by
      simp only [isDigitB, Bool.and_eq_true, decide_eq_true_eq] at hcdig
      omega
    refine ⟨by rw [hrepr]; exact hne, ?_, ?_⟩
    · rw [hrepr]
      intro x hx
      have := hdig x hx
      simp only [isDigitB, Bool.and_eq_true, decide_eq_true_eq] at this
      omega
    · rw [hrepr, hcons]
      have hred : parseIntB (c :: cs) = (parseNatB (c :: cs)).map (fun m => (m : Int)) := by
        unfold parseIntB
        split
        · next heq =>
          rw [List.cons.injEq] at heq
          exact absurd heq.1 hc45
        · rfl
      rw [hred, ← hcons, hparse]
      show some ((i.natAbs : Int)) = some i
      congr 1
      omega

theorem splitSlash_no_slash (cs : List Nat) (h : ∀ c ∈ cs, c ≠ 47) :
    splitSlash cs = (cs, none) := by
  induction cs with
  | nil => rfl
  | cons c rest ih =>
    unfold splitSlash
    rw [if_neg (h c (List.mem_cons_self _ _))]
    rw [ih (fun x hx => h x (List.mem_cons_of_mem _ hx))]

theorem splitSlash_append (a b : List Nat) (h : ∀ c ∈ a, c ≠ 47) :
    splitSlash (a ++ 47 :: b) = (a, some b) := by
  induction a with
  | nil => rfl
  | cons c rest ih =>
    show splitSlash (c :: (rest ++ 47 :: b)) = (c :: rest, some b)
    unfold splitSlash
    rw [if_neg (h c (List.mem_cons_self _ _))]
    rw [ih (fun x hx => h x (List.mem_cons_of_mem _ hx))]

/-! ## Claim C4: print and parse round trip -/

/-- C4: parsing the printed form of a canonical rational reproduces an
equal value, and printing the reconstructed value reproduces the same
string; unit denominators print as the signed numerator alone, all other
values as numerator, slash, denominator. -/
theorem claim_C4 (q : MpRat) (h : isCanonical q) :
    ratFromBytes (printRatB q) = .ok q ∧
      ∀ r, ratFromBytes (printRatB q) = .ok r → printRatB r = printRatB q := by
  obtain ⟨hpos, hgcd, hzero⟩ := h
  have main : ratFromBytes (printRatB q) = .ok q := by
    unfold printRatB
    by_cases hden : q.den = 1
    · rw [if_pos hden]
      unfold ratFromBytes
      rw [splitSlash_no_slash _ (intStrB_spec q.num).2.1]
      dsimp only
      rw [(intStrB_spec q.num).2.2]
      show Except.ok ⟨q.num, 1⟩ = Except.ok q
      rw [show (⟨q.num, 1⟩ : MpRat) = q by cases q; simp only at hden ⊢; rw [hden]]
    · rw [if_neg hden]
      unfold ratFromBytes
      rw [splitSlash_append _ _ (intStrB_spec q.num).2.1]
      dsimp only
      rw [(intStrB_spec q.num).2.2, (intStrB_spec q.den).2.2]
      dsimp only
      rw [if_neg (by omega : ¬q.den = 0)]
      rw [show (⟨q.num, q.den⟩ : MpRat) = q by cases q; rfl]
      rw [canonicalise_of_canonical q ⟨hpos, hgcd, hzero⟩]
  refine ⟨main, fun r hr => ?_⟩
  rw [main] at hr
  injection hr with h2
  rw [h2]

/-- Witness for C4 at the canonical rational 3/2. -/
theorem claim_C4_witness :
    isCanonical (⟨3, 2⟩ : MpRat) ∧
      ratFromBytes (printRatB ⟨3, 2⟩) = .ok ⟨3, 2⟩ :=
  ⟨by decide, (claim_C4 ⟨3, 2⟩ (by decide)).1⟩

/-! ## Claim C5: accepted input grammar -/

/-- C5 counterexample: the byte string of the four characters 1, slash,
minus, 2 lies outside the printed grammar (the denominator carries a
sign), yet the string constructor accepts it and canonicalises it to the
rational -1/2 instead of failing with a format error. -/
theorem claim_C5_counterexample :
    ratFromBytes [49, 47, 45, 50] = .ok ⟨-1, 2⟩ ∧
      specGrammarC5 [49, 47, 45, 50] = false := by decide

/-- C5 amended: the string constructor accepts exactly those strings
whose part before the first slash (and, when a slash occurs, the part
after it) parse as backend signed decimal integers; with no slash the
result is the integer over denominator 1 (no canonicalisation), with a
slash and a nonzero denominator the canonicalised fraction.  This is a
strict superset of the printed grammar: sign-carrying denominators,
unreduced fractions and zero-padded digit runs are all accepted.  A
denominator that parses to zero yields the zero-division error, not a
format error, and a part the backend cannot parse yields the format
error; the last conjunct instantiates the acceptance family at every
canonically spelled pair. -/
theorem claim_C5 (cs pre post : List Nat) :
    (splitSlash cs = (pre, none) →
      (∀ n, parseIntB pre = some n → ratFromBytes cs = .ok ⟨n, 1⟩) ∧
      (parseIntB pre = none → ratFromBytes cs = .error .invalidArgument)) ∧
    (splitSlash cs = (pre, some post) →
      (∀ n d, parseIntB pre = some n → parseIntB post = some d → d ≠ 0 →
        ratFromBytes cs = .ok (canonicalise ⟨n, d⟩)) ∧
      (∀ n, parseIntB pre = some n → parseIntB post = some 0 →
        ratFromBytes cs = .error .zeroDivision) ∧
      (parseIntB pre = none → ratFromBytes cs = .error .invalidArgument) ∧
      (∀ n, parseIntB pre = some n → parseIntB post = none →
        ratFromBytes cs = .error .invalidArgument)) ∧
    (∀ n d : Int, d ≠ 0 →
      ratFromBytes (intStrB n ++ 47 :: intStrB d) = .ok (canonicalise ⟨n, d⟩)) := by
  refine ⟨?_, ?_, ?_⟩
  · intro hsplit
    constructor
    · intro n hn
      unfold ratFromBytes
      rw [hsplit]
      dsimp only
      rw [hn]
    · intro hn
      unfold ratFromBytes
      rw [hsplit]
      dsimp only
      rw [hn]
  · intro hsplit
    refine ⟨?_, ?_, ?_, ?_⟩
    · intro n d hn hd hdz
      unfold ratFromBytes
      rw [hsplit]
      dsimp only
      rw [hn]
      dsimp only
      rw [hd]
      dsimp only
      rw [if_neg hdz]
    · intro n hn hd
      unfold ratFromBytes
      rw [hsplit]
      dsimp only
      rw [hn]
      dsimp only
      rw [hd]
      dsimp only
      rw [if_pos rfl]
    · intro hn
      unfold ratFromBytes
      rw [hsplit]
      dsimp only
      rw [hn]
    · intro n hn hd
      unfold ratFromBytes
      rw [hsplit]
      dsimp only
      rw [hn]
      dsimp only
      rw [hd]
  · intro n d hd
    unfold ratFromBytes
    rw [splitSlash_append _ _ (intStrB_spec n).2.1]
    dsimp only
    rw [(intStrB_spec n).2.2, (intStrB_spec d).2.2]
    dsimp only
    rw [if_neg hd]

/-- Witness for C5 at one input per behavior class: the zero-padded
unreduced string 6/04 (bytes 54, 47, 48, 52) is accepted and
canonicalises to 3/2; the string 5/0 (bytes 53, 47, 48) throws the
zero-division error; the single unparsable byte 97 (the letter a) throws
the format error. -/
theorem claim_C5_witness :
    ratFromBytes [54, 47, 48, 52] = .ok (canonicalise ⟨6, 4⟩) ∧
      canonicalise (⟨6, 4⟩ : MpRat) = ⟨3, 2⟩ ∧
      ratFromBytes [53, 47, 48] = .error .zeroDivision ∧
      ratFromBytes [97] = .error .invalidArgument :=
  ⟨((claim_C5 [54, 47, 48, 52] [54] [48, 52]).2.1 (by decide)).1 6 4
      (by decide) (by decide) (by decide),
    by decide,
    ((claim_C5 [53, 47, 48] [53] [48]).2.1 (by decide)).2.1 5 (by decide) (by decide),
    ((claim_C5 [97] [97] []).1 (by decide)).2 (by decide)⟩

end Piranha

namespace Piranha

/-! ## Claim C9: static add at mixed signs -/

/-- C9: evaluation of static_integer::add at a failing mixed-sign input:
x holds two limbs [5, 7] with positive size (value 7 * 2 ^ 32 + 5) and y
the limbs [3, 7] with negative size (value -(7 * 2 ^ 32 + 3)); the exact
sum is 2.  The mixed-sign dispatch compares only the single limb at index
size - 1, which ties, so it picks the smaller magnitude as minuend and
raw_sub underflows, returning -(2 ^ 64 - 2); in a debug build this path
trips the assert(false) guard inside raw_sub. -/
theorem claim_C9 :
    SInt.val (sAdd ⟨2, 5, 7, 0⟩ ⟨-2, 3, 7, 0⟩) = -(2 ^ 64 - 2) ∧
      SInt.val ⟨2, 5, 7, 0⟩ + SInt.val ⟨-2, 3, 7, 0⟩ = 2 := by decide

/-! ## Claim C2: promotion transparency through the union -/

/-- C2: evaluation of the union addition at static operands a with limbs
[9, 4] (value 4 * 2 ^ 32 + 9) and b with limbs [2, 4] negated (value
-(4 * 2 ^ 32 + 2)).  Both operands pass the static pre-check, so the
union executes static_integer::add, which returns -(2 ^ 64 - 7) instead
of the backend result 7: the operation through the union type does not
equal the trusted arbitrary-precision result. -/
theorem claim_C2 :
    (IntU.addU (.st ⟨2, 9, 4, 0⟩) (.st ⟨-2, 2, 4, 0⟩)).val = -(2 ^ 64 - 7) ∧
      (IntU.st ⟨2, 9, 4, 0⟩).val + (IntU.st ⟨-2, 2, 4, 0⟩).val = 7 ∧
      (IntU.addU (.st ⟨2, 9, 4, 0⟩) (.st ⟨-2, 2, 4, 0⟩)).val ≠
        (IntU.st ⟨2, 9, 4, 0⟩).val + (IntU.st ⟨-2, 2, 4, 0⟩).val := by decide

end Piranha

namespace Piranha

/-! ## Static integer constructor lemmas -/

theorem lor_two_pow_of_lt {l r : Nat} (h : l < 2 ^ r) : l ||| 2 ^ r = l + 2 ^ r := by
  apply Nat.eq_of_testBit_eq
  intro i
  rw [Nat.testBit_lor]
  rcases Nat.lt_trichotomy i r with hi | hi | hi
  · rw [Nat.testBit_two_pow_of_ne (by omega), Bool.or_false]
    rw [Nat.testBit_to_div_mod, Nat.testBit_to_div_mod]
    obtain ⟨c, hc⟩ : 2 ^ i ∣ 2 ^ r := pow_dvd_pow 2 (le_of_lt hi)
    have hc2 : c % 2 = 0 := by
      rcases Nat.even_or_odd c with he | ho
      · exact Nat.even_iff.mp he
      · exfalso
        have hceq : c = 2 ^ (r - i) := by
          have h3 := hc
          rw [show r = i + (r - i) by omega, pow_add] at h3
          exact Nat.eq_of_mul_eq_mul_left (Nat.pos_pow_of_pos i (by norm_num)) h3.symm
        have hparity : c % 2 = 1 := Nat.odd_iff.mp ho
        have hdv : (2 : Nat) ∣ c := by
          rw [hceq]
          exact dvd_pow_self 2 (by omega)
        omega
    rw [hc, Nat.add_mul_div_left _ _ (Nat.pos_pow_of_pos i (by norm_num))]
    have hmod : (l / 2 ^ i + c) % 2 = l / 2 ^ i % 2 := by omega
    rw [hmod]
  · subst hi
    rw [Nat.testBit_two_pow_self, Bool.or_true]
    rw [Nat.testBit_to_div_mod]
    have hdiv : (l + 2 ^ i) / 2 ^ i = 1 := by
      rw [Nat.add_div_right _ (Nat.pos_pow_of_pos i (by norm_num)), Nat.div_eq_of_lt h]
    simp [hdiv]
  · have h1 : l + 2 ^ r < 2 ^ i := by
      have hle : 2 ^ (r + 1) ≤ 2 ^ i := Nat.pow_le_pow_right (by norm_num) (by omega)
      rw [Nat.pow_succ] at hle
      omega
    rw [Nat.testBit_two_pow_of_ne (by omega), Bool.or_false,
      Nat.testBit_lt_two_pow h1, Nat.testBit_lt_two_pow (by omega)]

theorem shiftLeft_one_eq (r : Nat) : 1 <<< r = 2 ^ r := by
  rw [Nat.shiftLeft_eq, one_mul]

theorem setBit_step (s : SInt) (idx : Nat) (h96 : idx < 96)
    (h0 : s.l0 < 2 ^ 32) (h1 : s.l1 < 2 ^ 32) (h2 : s.l2 < 2 ^ 32)
    (hmag : s.mag < 2 ^ idx) (hsz : 0 ≤ s.mpSize) :
    (s.setBit idx).mag = s.mag + 2 ^ idx ∧
      (s.setBit idx).l0 < 2 ^ 32 ∧ (s.setBit idx).l1 < 2 ^ 32 ∧
      (s.setBit idx).l2 < 2 ^ 32 ∧ 0 < (s.setBit idx).mpSize := by
  obtain ⟨sz, a0, a1, a2⟩ := s
  simp only [SInt.mag] at hmag ⊢
  simp only at h0 h1 h2 hsz
  rcases Nat.lt_or_ge idx 32 with hr | hr
  · have hq : idx / 32 = 0 := by omega
    have hrem : idx % 32 = idx := by omega
    have hple : 2 ^ idx ≤ 2 ^ 32 := Nat.pow_le_pow_right (by norm_num) (by omega)
    have ha1 : a1 = 0 := by omega
    have ha2 : a2 = 0 := by omega
    have ha0 : a0 < 2 ^ idx := by omega
    have hnew : 2 ^ (idx + 1) ≤ 2 ^ 32 := Nat.pow_le_pow_right (by norm_num) (by omega)
    have hpow1 : (2 : Nat) ^ (idx + 1) = 2 ^ idx + 2 ^ idx := by
      rw [pow_succ]
      omega
    unfold SInt.setBit SInt.setLimb SInt.limb
    rw [hq, hrem]
    norm_num
    simp only [shiftLeft_one_eq]
    rw [lor_two_pow_of_lt ha0]
    split
    · exfalso
      omega
    · split <;> refine ⟨?_, ?_, ?_, ?_, ?_⟩ <;> (dsimp only [SInt.mag]; omega)
  · rcases Nat.lt_or_ge idx 64 with hr2 | hr2
    · have hq : idx / 32 = 1 := by omega
      have hrem : idx % 32 = idx - 32 := by omega
      have hple : 2 ^ idx ≤ 2 ^ 64 := Nat.pow_le_pow_right (by norm_num) (by omega)
      have hsplit : (2 : Nat) ^ idx = 2 ^ (idx - 32) * 2 ^ 32 := by
        rw [← pow_add]
        congr 1
        omega
      have ha2 : a2 = 0 := by
        have h64 : (2 : Nat) ^ 64 = 18446744073709551616 := by norm_num
        omega
      have ha1 : a1 < 2 ^ (idx - 32) := by
        by_contra hcon
        push_neg at hcon
        have hmul : 2 ^ (idx - 32) * 2 ^ 32 ≤ a1 * 2 ^ 32 :=
          Nat.mul_le_mul_right _ hcon
        omega
      have hnew : 2 ^ (idx - 32 + 1) ≤ 2 ^ 32 := Nat.pow_le_pow_right (by norm_num) (by omega)
      have hpow1 : (2 : Nat) ^ (idx - 32 + 1) = 2 ^ (idx - 32) + 2 ^ (idx - 32) := by
        rw [pow_succ]
        omega
      unfold SInt.setBit SInt.setLimb SInt.limb
      rw [hq, hrem]
      norm_num
      simp only [shiftLeft_one_eq]
      rw [lor_two_pow_of_lt ha1]
      split
      · exfalso
        omega
      · split <;> refine ⟨?_, ?_, ?_, ?_, ?_⟩ <;> (dsimp only [SInt.mag]; omega)
    · have hq : idx / 32 = 2 := by omega
      have hrem : idx % 32 = idx - 64 := by omega
      have hsplit : (2 : Nat) ^ idx = 2 ^ (idx - 64) * 2 ^ 64 := by
        rw [← pow_add]
        congr 1
        omega
      have ha2 : a2 < 2 ^ (idx - 64) := by
        by_contra hcon
        push_neg at hcon
        have hmul : 2 ^ (idx - 64) * 2 ^ 64 ≤ a2 * 2 ^ 64 :=
          Nat.mul_le_mul_right _ hcon
        omega
      have hnew : 2 ^ (idx - 64 + 1) ≤ 2 ^ 32 := Nat.pow_le_pow_right (by norm_num) (by omega)
      have hpow1 : (2 : Nat) ^ (idx - 64 + 1) = 2 ^ (idx - 64) + 2 ^ (idx - 64) := by
        rw [pow_succ]
        omega
      unfold SInt.setBit SInt.setLimb SInt.limb
      rw [hq, hrem]
      norm_num
      simp only [shiftLeft_one_eq]
      rw [lor_two_pow_of_lt ha2]
      split
      · exfalso
        omega
      · split <;> refine ⟨?_, ?_, ?_, ?_, ?_⟩ <;> (dsimp only [SInt.mag]; omega)

end Piranha

namespace Piranha

/-! ## The constructor loop -/

theorem tdiv_two_natAbs (n : Int) : (Int.tdiv n 2).natAbs = n.natAbs / 2 :=
  Int.natAbs_tdiv n 2

theorem tmod_two_ne_zero (n : Int) : Int.tmod n 2 ≠ 0 ↔ n.natAbs % 2 = 1 := by
  cases n with
  | ofNat m =>
    show (Int.ofNat (m % 2) ≠ 0) ↔ m % 2 = 1
    constructor
    · intro h
      have : m % 2 ≠ 0 := by
        intro hc
        exact h (by rw [hc]; rfl)
      omega
    · intro h hc
      rw [h] at hc
      cases hc
  | negSucc m =>
    show (-Int.ofNat ((m + 1) % 2) ≠ 0) ↔ (m + 1) % 2 = 1
    constructor
    · intro h
      have : (m + 1) % 2 ≠ 0 := by
        intro hc
        exact h (by rw [hc]; rfl)
      omega
    · intro h hc
      rw [h] at hc
      cases hc

theorem ctorLoop_spec :
    ∀ (fuel : Nat) (n : Int) (bitIdx : Nat) (s : SInt),
      bitIdx ≤ 96 → 96 - bitIdx < fuel →
      s.l0 < 2 ^ 32 → s.l1 < 2 ^ 32 → s.l2 < 2 ^ 32 →
      s.mag < 2 ^ bitIdx → 0 ≤ s.mpSize → (s.mag ≠ 0 → 0 < s.mpSize) →
      (n.natAbs < 2 ^ (96 - bitIdx) →
        ∃ s2, ctorLoop fuel n bitIdx s = .ok s2 ∧
          s2.mag = s.mag + n.natAbs * 2 ^ bitIdx ∧ 0 ≤ s2.mpSize ∧
          (s2.mag ≠ 0 → 0 < s2.mpSize)) ∧
      (2 ^ (96 - bitIdx) ≤ n.natAbs → ctorLoop fuel n bitIdx s = .error .overflow) := by
  intro fuel
  induction fuel with
  | zero =>
    intro n bitIdx s hb hfuel
    omega
  | succ fuel ih =>
    intro n bitIdx s hb hfuel h0 h1 h2 hmag hsz hszpos
    have hstep :
        ctorLoop (fuel + 1) n bitIdx s =
          if n = 0 then .ok s
          else if bitIdx = 32 * 3 then .error .overflow
          else
            ctorLoop fuel (Int.tdiv n 2) (bitIdx + 1)
              (if Int.tmod n 2 ≠ 0 then s.setBit bitIdx else s) := rfl
    by_cases hz : n = 0
    · subst hz
      rw [hstep, if_pos rfl]
      constructor
      · intro _
        exact ⟨s, rfl, by simp, hsz, hszpos⟩
      · intro habs
        have hpow : 0 < 2 ^ (96 - bitIdx) := Nat.pos_pow_of_pos _ (by norm_num)
        simp only [Int.natAbs_zero] at habs
        omega
    · rw [hstep, if_neg hz]
      by_cases hedge : bitIdx = 32 * 3
    
      · rw [if_pos hedge]
        constructor
        · intro hlt
          exfalso
          have : (96 : Nat) - bitIdx = 0 := by omega
          rw [this] at hlt
          have : n.natAbs = 0 := by omega
          exact hz (Int.natAbs_eq_zero.mp this)
        · intro _
          rfl
      · rw [if_neg hedge]
        have hblt : bitIdx < 96 := by omega
        have habs : n.natAbs ≠ 0 := fun h => hz (Int.natAbs_eq_zero.mp h)
        have hpow2 : (2 : Nat) ^ (96 - bitIdx) = 2 * 2 ^ (96 - (bitIdx + 1)) := by
          rw [← pow_succ']
          congr 1
          omega
        have hpowstep : (2 : Nat) ^ (bitIdx + 1) = 2 ^ bitIdx * 2 := pow_succ 2 bitIdx
        -- invariants for the updated accumulator
        by_cases hbit : Int.tmod n 2 ≠ 0
        · obtain ⟨hmag2, hl0, hl1, hl2, hpos⟩ :=
            setBit_step s bitIdx hblt h0 h1 h2 hmag hsz
          rw [if_pos hbit]
          have hoddtrue : n.natAbs % 2 = 1 := (tmod_two_ne_zero n).mp hbit
          have hmagbound : (s.setBit bitIdx).mag < 2 ^ (bitIdx + 1) := by
            rw [hmag2, hpowstep]
            omega
          have hrec := ih (Int.tdiv n 2) (bitIdx + 1) (s.setBit bitIdx)
            (by omega) (by omega) hl0 hl1 hl2 hmagbound (le_of_lt hpos)
            (fun _ => hpos)
          rw [tdiv_two_natAbs] at hrec
          constructor
          · intro hlt
            obtain ⟨s2, hok, hm, h3, h4⟩ := hrec.1 (by omega)
            refine ⟨s2, hok, ?_, h3, h4⟩
            rw [hm, hmag2, hpowstep]
            have : n.natAbs = 2 * (n.natAbs / 2) + 1 := by omega
            nlinarith [this]
          · intro hge
            exact hrec.2 (by omega)
        · rw [if_neg hbit]
          have heventrue : n.natAbs % 2 = 0 := by
            rcases Nat.even_or_odd n.natAbs with he | ho
            · exact Nat.even_iff.mp he
            · exact absurd ((tmod_two_ne_zero n).mpr (Nat.odd_iff.mp ho)) hbit
          have hmagbound : s.mag < 2 ^ (bitIdx + 1) := by
            rw [hpowstep]
            omega
          have hrec := ih (Int.tdiv n 2) (bitIdx + 1) s
            (by omega) (by omega) h0 h1 h2 hmagbound hsz hszpos
          rw [tdiv_two_natAbs] at hrec
          constructor
          · intro hlt
            obtain ⟨s2, hok, hm, h3, h4⟩ := hrec.1 (by omega)
            refine ⟨s2, hok, ?_, h3, h4⟩
            rw [hm, hpowstep]
            have : n.natAbs = 2 * (n.natAbs / 2) := by omega
            nlinarith [this]
          · intro hge
            exact hrec.2 (by omega)

end Piranha

namespace Piranha

/-! ## Claim C8: static construction from a native integer -/

/-- C8: constructing a static integer from an integral value succeeds and
represents the value exactly whenever its magnitude fits in the 3 limb
capacity of 96 bits (the exact boundary included), and fails with an
overflow error, never truncating, whenever the magnitude needs more than
96 bits. -/
theorem claim_C8 (n : Int) :
    (n.natAbs < 2 ^ 96 → ∃ s, staticOfInt n = .ok s ∧ s.val = n) ∧
    (2 ^ 96 ≤ n.natAbs → staticOfInt n = .error .overflow) := by
  have h := ctorLoop_spec 97 n 0 SInt.zero (by norm_num) (by norm_num)
    (by decide) (by decide) (by decide) (by decide) (by decide)
    (fun hc => absurd rfl hc)
  constructor
  · intro hlt
    obtain ⟨s2, hok, hm, hs2, hs2pos⟩ := h.1 (by simpa using hlt)
    simp only [show SInt.zero.mag = 0 from rfl, pow_zero, mul_one, zero_add] at hm
    refine ⟨if n < 0 then s2.negate else s2, ?_, ?_⟩
    · unfold staticOfInt
      rw [hok]
    · by_cases hneg : n < 0
      · rw [if_pos hneg]
        have hmagne : s2.mag ≠ 0 := by rw [hm]; omega
        have hp := hs2pos hmagne
        obtain ⟨sz, a0, a1, a2⟩ := s2
        simp only [SInt.mag] at hm
        simp only at hp
        unfold SInt.negate SInt.val SInt.mag
        dsimp only
        split <;> omega
      · rw [if_neg hneg]
        obtain ⟨sz, a0, a1, a2⟩ := s2
        simp only [SInt.mag] at hm
        simp only at hs2
        unfold SInt.val SInt.mag
        dsimp only
        split <;> omega
  · intro hge
    unfold staticOfInt
    rw [h.2 (by simpa using hge)]

set_option maxRecDepth 40000 in
/-- Witness for C8 at the exact capacity boundary 2 ^ 96 - 1 (succeeds,
exact value) and one value needing 97 bits, 2 ^ 96 (overflow error). -/
theorem claim_C8_witness :
    ((2 ^ 96 - 1 : Int).natAbs < 2 ^ 96 ∧
      ∃ s, staticOfInt (2 ^ 96 - 1) = .ok s ∧ s.val = 2 ^ 96 - 1) ∧
      (2 ^ 96 ≤ ((2 : Int) ^ 96).natAbs ∧ staticOfInt (2 ^ 96) = .error .overflow) :=
  ⟨⟨by decide, (claim_C8 (2 ^ 96 - 1)).1 (by decide)⟩,
    ⟨by decide, (claim_C8 (2 ^ 96)).2 (by decide)⟩⟩

end Piranha
